import Mathlib

/-!
Shallow embedding of the app-making-app repository (client-side project
planner: canvas geometry, hierarchy store, AI merge engine, export/import),
with theorems checking the natural-language specification against the code.

Sources embedded:
* `src/js/canvas.js`   — zoom/pan geometry, subtask/feature status toggles
* `src/js/storage.js`  — hierarchy mutation (add/find/delete), export/import
* `src/js/ai.js`       — `mergeAIResponse` (keep/discard reconciliation)
* `src/unnamed/part_000` (main application file) — `applyAIResponse`

JS numbers used by the geometry are modelled as rationals (`ℚ`); entity id
strings are modelled as `Nat` drawn from an abstract injective supply
`gen : Nat → Nat` standing for successive `generateId()` calls.
-/

namespace AppMakingApp

/-- `Feature.status ∈ {not_started, in_progress, complete}` (spec §3). -/
inductive FStatus where
  | not_started
  | in_progress
  | complete
deriving DecidableEq, Repr, BEq

/-- `Feature.marked_as ∈ {none, keep, discard}` (spec §3). -/
inductive Marked where
  | none
  | keep
  | discard
deriving DecidableEq, Repr, BEq

/-- 2D position record `{x, y}` used by phases and features. -/
structure Position where
  x : Int
  y : Int
deriving DecidableEq, Repr, BEq

/-- Subtask entity (`storage.js` `addSubtask` shape). -/
structure Subtask where
  id : Nat
  feature_id : Nat
  description : String
  completed : Bool
  ai_generated : Bool
deriving DecidableEq, Repr, BEq

/-- Feature entity (`storage.js` `addFeature` shape). -/
structure Feature where
  id : Nat
  phase_id : Nat
  name : String
  description : String
  status : FStatus
  ai_generated : Bool
  marked_as : Marked
  collapsed : Bool
  position : Position
  dependencies : List Nat
  subtasks : List Subtask
deriving DecidableEq, Repr, BEq

/-- Phase entity (`storage.js` `addPhase` shape). -/
structure Phase where
  id : Nat
  project_id : Nat
  name : String
  description : String
  order : Nat
  collapsed : Bool
  position : Position
  features : List Feature
deriving DecidableEq, Repr, BEq

/-- Per-project persisted view state `{zoom_level, pan_x, pan_y}`. -/
structure CanvasState where
  zoom_level : ℚ
  pan_x : ℚ
  pan_y : ℚ
deriving DecidableEq, Repr, BEq

/-- Project root aggregate (`storage.js` `createProject` shape). -/
structure Project where
  id : Nat
  name : String
  goal : String
  created : Nat
  modified : Nat
  ai_model : String
  gist_id : Option Nat
  gist_url : Option String
  last_synced : Option Nat
  phases : List Phase
  canvas_state : CanvasState
deriving DecidableEq, Repr, BEq

/-! ## Geometry engine (`canvas.js`) -/

/-- The module-level `(scale, translateX, translateY)` state of `canvas.js`. -/
structure Transform where
  scale : ℚ
  translateX : ℚ
  translateY : ℚ
deriving DecidableEq, Repr, BEq

/-- `const MIN_ZOOM = 0.25` (`canvas.js`). -/
def MIN_ZOOM : ℚ := 1/4

/-- `const MAX_ZOOM = 4` (`canvas.js`). -/
def MAX_ZOOM : ℚ := 4

/-- `const ZOOM_STEP = 0.1` (`canvas.js`). -/
def ZOOM_STEP : ℚ := 1/10

/-- Screen-to-content conversion `content = (screen - translate) / scale`,
as computed inline in `zoomAtPoint` and the drag handlers of `canvas.js`
(`x`, `y` are cursor coordinates already relative to the canvas rect). -/
def screenToContent (x y : ℚ) (t : Transform) : ℚ × ℚ :=
  ((x - t.translateX) / t.scale, (y - t.translateY) / t.scale)

/-- `zoomAtPoint(clientX, clientY, delta)` of `canvas.js` (lines 102–124):
clamps `newScale = min(MAX_ZOOM, max(MIN_ZOOM, scale + delta))` and, only
when the clamped scale differs from the current one, recomputes the
translation so the content point under the cursor stays fixed.
`x`, `y` are the rect-relative cursor coordinates (`clientX - rect.left`,
`clientY - rect.top`). -/
def zoomAtPoint (x y delta : ℚ) (t : Transform) : Transform :=
  let contentX := (x - t.translateX) / t.scale
  let contentY := (y - t.translateY) / t.scale
  let newScale := min MAX_ZOOM (max MIN_ZOOM (t.scale + delta))
  if newScale ≠ t.scale then
    { scale := newScale
      translateX := x - contentX * newScale
      translateY := y - contentY * newScale }
  else t

/-- One zoom-affecting canvas operation:
* `wheelZoom x y delta` — `handleWheel`'s ctrl/meta pinch path, calling
  `zoomAtPoint` with an arbitrary wheel-derived `delta`;
* `zoomInCtl` / `zoomOutCtl` — the discrete zoom controls, calling
  `zoomAtPoint` at the canvas center with `±ZOOM_STEP`;
* `pinch startScale ratio cx cy` — the two-touch branch of
  `handleTouchMove`, which sets
  `scale = min(MAX_ZOOM, max(MIN_ZOOM, touchStartScale * ratio))`
  anchored at the (rect-relative) pinch midpoint `(cx, cy)`. -/
inductive ZoomOp where
  | wheelZoom (x y delta : ℚ)
  | zoomInCtl (cx cy : ℚ)
  | zoomOutCtl (cx cy : ℚ)
  | pinch (startScale ratio cx cy : ℚ)
deriving Repr

/-- Apply one zoom operation to the canvas transform (from `canvas.js`
`handleWheel` / `zoomIn` / `zoomOut` / `handleTouchMove`). -/
def applyZoomOp (t : Transform) : ZoomOp → Transform
  | .wheelZoom x y delta => zoomAtPoint x y delta t
  | .zoomInCtl cx cy => zoomAtPoint cx cy ZOOM_STEP t
  | .zoomOutCtl cx cy => zoomAtPoint cx cy (-ZOOM_STEP) t
  | .pinch startScale ratio cx cy =>
    let newScale := min MAX_ZOOM (max MIN_ZOOM (startScale * ratio))
    let contentX := (cx - t.translateX) / t.scale
    let contentY := (cy - t.translateY) / t.scale
    { scale := newScale
      translateX := cx - contentX * newScale
      translateY := cy - contentY * newScale }

lemma min_max_clamp_mem (s : ℚ) :
    MIN_ZOOM ≤ min MAX_ZOOM (max MIN_ZOOM s) ∧
      min MAX_ZOOM (max MIN_ZOOM s) ≤ MAX_ZOOM := by
  constructor
  · apply le_min
    · norm_num [MIN_ZOOM, MAX_ZOOM]
    · exact le_max_left _ _
  · exact min_le_left _ _

lemma applyZoomOp_scale_mem (t : Transform) (op : ZoomOp)
    (h₁ : MIN_ZOOM ≤ t.scale) (h₂ : t.scale ≤ MAX_ZOOM) :
    MIN_ZOOM ≤ (applyZoomOp t op).scale ∧ (applyZoomOp t op).scale ≤ MAX_ZOOM := by
  cases op with
  | wheelZoom x y delta =>
    simp only [applyZoomOp, zoomAtPoint]
    split
    · exact min_max_clamp_mem _
    · exact ⟨h₁, h₂⟩
  | zoomInCtl cx cy =>
    simp only [applyZoomOp, zoomAtPoint]
    split
    · exact min_max_clamp_mem _
    · exact ⟨h₁, h₂⟩
  | zoomOutCtl cx cy =>
    simp only [applyZoomOp, zoomAtPoint]
    split
    · exact min_max_clamp_mem _
    · exact ⟨h₁, h₂⟩
  | pinch s0 ratio cx cy =>
    simpa only [applyZoomOp] using min_max_clamp_mem (s0 * ratio)

/-- C6: the anchor-preserving zoom invariant and the no-op case of
`zoomAtPoint`: when `scale ≠ 0`, the content point under the cursor is
unchanged by a zoom at that cursor, and when the clamped new scale equals
the current scale the whole transform is returned unchanged. -/
theorem zoomAtPoint_anchor_and_noop (t : Transform) (x y delta : ℚ)
    (hs : t.scale ≠ 0) :
    screenToContent x y (zoomAtPoint x y delta t) = screenToContent x y t ∧
      (min MAX_ZOOM (max MIN_ZOOM (t.scale + delta)) = t.scale →
        zoomAtPoint x y delta t = t) := by
  constructor
  · by_cases hne : min MAX_ZOOM (max MIN_ZOOM (t.scale + delta)) = t.scale
    · simp [zoomAtPoint, hne]
    · have hpos : (0 : ℚ) < min MAX_ZOOM (max MIN_ZOOM (t.scale + delta)) := by
        have := (min_max_clamp_mem (t.scale + delta)).1
        have h0 : (0 : ℚ) < MIN_ZOOM := by norm_num [MIN_ZOOM]
        linarith
      have hns : min MAX_ZOOM (max MIN_ZOOM (t.scale + delta)) ≠ 0 := ne_of_gt hpos
      simp only [zoomAtPoint, screenToContent, if_pos (by exact hne), Prod.mk.injEq]
      constructor <;> (field_simp; ring)
  · intro heq
    simp [zoomAtPoint, heq]

/-- C6 witness: concrete instantiation of the anchor/no-op theorem. -/
theorem zoomAtPoint_anchor_and_noop_witness :
    (1 : ℚ) ≠ 0 ∧
      (screenToContent 7 5 (zoomAtPoint 7 5 (1/2) ⟨1, 40, 40⟩) =
          screenToContent 7 5 ⟨1, 40, 40⟩ ∧
        (min MAX_ZOOM (max MIN_ZOOM ((1 : ℚ) + 1/2)) = 1 →
          zoomAtPoint 7 5 (1/2) ⟨1, 40, 40⟩ = ⟨1, 40, 40⟩)) := by
  refine ⟨by norm_num, ?_⟩
  exact zoomAtPoint_anchor_and_noop ⟨1, 40, 40⟩ 7 5 (1/2) (by norm_num)

/-- C7: starting from any in-bounds scale, any sequence of zoom operations
(wheel pinch, discrete zoom-in/out with step `0.1`, touch pinch) keeps
`MIN_ZOOM ≤ scale ≤ MAX_ZOOM`. -/
theorem zoom_scale_bounded (ops : List ZoomOp) (t : Transform)
    (h₁ : MIN_ZOOM ≤ t.scale) (h₂ : t.scale ≤ MAX_ZOOM) :
    MIN_ZOOM ≤ (ops.foldl applyZoomOp t).scale ∧
      (ops.foldl applyZoomOp t).scale ≤ MAX_ZOOM := by
  induction ops generalizing t with
  | nil => exact ⟨h₁, h₂⟩
  | cons op ops ih =>
    have hstep := applyZoomOp_scale_mem t op h₁ h₂
    simpa only [List.foldl_cons] using ih (applyZoomOp t op) hstep.1 hstep.2

/-- C7 witness: concrete zoom sequence starting from scale 1. -/
theorem zoom_scale_bounded_witness :
    (MIN_ZOOM ≤ (1 : ℚ) ∧ (1 : ℚ) ≤ MAX_ZOOM) ∧
      (MIN_ZOOM ≤
          (([ZoomOp.wheelZoom 0 0 10, ZoomOp.zoomOutCtl 3 3,
              ZoomOp.pinch 1 100 0 0].foldl applyZoomOp ⟨1, 40, 40⟩).scale) ∧
        (([ZoomOp.wheelZoom 0 0 10, ZoomOp.zoomOutCtl 3 3,
              ZoomOp.pinch 1 100 0 0].foldl applyZoomOp ⟨1, 40, 40⟩).scale) ≤
          MAX_ZOOM) := by
  refine ⟨⟨by norm_num [MIN_ZOOM], by norm_num [MAX_ZOOM]⟩, ?_⟩
  exact zoom_scale_bounded _ ⟨1, 40, 40⟩ (by norm_num [MIN_ZOOM])
    (by norm_num [MAX_ZOOM])

/-! ## Hierarchy store (`storage.js` / `canvas.js`) -/

/-- `findPhase(project, phaseId)` (`storage.js`): first phase with that id. -/
def findPhase (project : Project) (phaseId : Nat) : Option Phase :=
  project.phases.find? (fun p => p.id == phaseId)

/-- `findFeature(project, featureId)` (`storage.js`): scans phases in order,
returning the enclosing phase together with the first matching feature. -/
def findFeature (project : Project) (featureId : Nat) : Option (Phase × Feature) :=
  project.phases.findSome? (fun phase =>
    (phase.features.find? (fun f => f.id == featureId)).map (fun f => (phase, f)))

/-- `project.phases.forEach((p, i) => p.order = i)` after a splice in
`deletePhase` (`storage.js`): renumber `order` fields from `start`. -/
def renumberPhases (start : Nat) : List Phase → List Phase
  | [] => []
  | p :: ps => { p with order := start } :: renumberPhases (start + 1) ps

/-- First-match removal of a phase by id, mirroring
`findIndex` + `splice(index, 1)` in `deletePhase` (`storage.js`);
`none` when no phase matches. -/
def removeFirstPhase (phaseId : Nat) : List Phase → Option (List Phase)
  | [] => none
  | p :: ps =>
    if p.id == phaseId then some ps
    else (removeFirstPhase phaseId ps).map (p :: ·)

/-- `deletePhase(project, phaseId)` (`storage.js` lines 270–279): splice out
the first matching phase, renumber the remaining phases' `order` from 0,
and report whether anything was deleted. -/
def deletePhase (project : Project) (phaseId : Nat) : Project × Bool :=
  match removeFirstPhase phaseId project.phases with
  | some ps => ({ project with phases := renumberPhases 0 ps }, true)
  | none => (project, false)

/-- First-match removal of a subtask by id inside one feature's list,
mirroring `findIndex` + `splice(index, 1)` in `deleteSubtaskFromProject`. -/
def removeFirstSubtask (subtaskId : Nat) : List Subtask → Option (List Subtask)
  | [] => none
  | s :: ss =>
    if s.id == subtaskId then some ss
    else (removeFirstSubtask subtaskId ss).map (s :: ·)

/-- The feature-list scan of `deleteSubtaskFromProject`: the first feature
whose subtask list contains the id gets the subtask spliced out. -/
def deleteSubtaskInFeatures (subtaskId : Nat) : List Feature → Option (List Feature)
  | [] => none
  | f :: fs =>
    match removeFirstSubtask subtaskId f.subtasks with
    | some ss => some ({ f with subtasks := ss } :: fs)
    | none => (deleteSubtaskInFeatures subtaskId fs).map (f :: ·)

/-- The phase-list scan of `deleteSubtaskFromProject`. -/
def deleteSubtaskInPhases (subtaskId : Nat) : List Phase → Option (List Phase)
  | [] => none
  | p :: ps =>
    match deleteSubtaskInFeatures subtaskId p.features with
    | some fs => some ({ p with features := fs } :: ps)
    | none => (deleteSubtaskInPhases subtaskId ps).map (p :: ·)

/-- `deleteSubtaskFromProject(project, subtaskId)` (`storage.js` lines
294–305): removes the first subtask with that id from its owning feature
and returns whether one was found. No other field (in particular no
feature `status`) is touched. -/
def deleteSubtaskFromProject (project : Project) (subtaskId : Nat) : Project × Bool :=
  match deleteSubtaskInPhases subtaskId project.phases with
  | some ps => ({ project with phases := ps }, true)
  | none => (project, false)

/-- `deleteSubtask(subtaskId)` (`canvas.js` lines 787–794): delegates to
`deleteSubtaskFromProject` on the current project (rendering/autosave are
presentation-only and not modelled). -/
def deleteSubtask (project : Project) (subtaskId : Nat) : Project :=
  (deleteSubtaskFromProject project subtaskId).1

/-- The status flip of `toggleFeatureStatus` (`canvas.js` lines 647–658):
`feature.status = feature.status === 'complete' ? 'not_started' : 'complete'`,
ignoring the subtask set entirely. -/
def toggleFeatureStatusFlip (f : Feature) : Feature :=
  { f with status := if f.status = .complete then .not_started else .complete }

/-- Project-level `toggleFeatureStatus`: flip the status of the first
feature with the given id (as found by `findFeature`). -/
def toggleFeatureStatusInFeatures (featureId : Nat) : List Feature → Option (List Feature)
  | [] => none
  | f :: fs =>
    if f.id == featureId then some (toggleFeatureStatusFlip f :: fs)
    else (toggleFeatureStatusInFeatures featureId fs).map (f :: ·)

/-- Phase-list scan for the project-level `toggleFeatureStatus`. -/
def toggleFeatureStatusInPhases (featureId : Nat) : List Phase → Option (List Phase)
  | [] => none
  | p :: ps =>
    match toggleFeatureStatusInFeatures featureId p.features with
    | some fs => some ({ p with features := fs } :: ps)
    | none => (toggleFeatureStatusInPhases featureId ps).map (p :: ·)

/-- `toggleFeatureStatus(featureId)` (`canvas.js` lines 647–658) on an
explicit project argument: flip the status of the feature found by
`findFeature`; no-op when the id is absent. -/
def toggleFeatureStatus (project : Project) (featureId : Nat) : Project :=
  match toggleFeatureStatusInPhases featureId project.phases with
  | some ps => { project with phases := ps }
  | none => project

/-- First-match `completed` flip inside a subtask list: the
`feature.subtasks.find(s => s.id === subtaskId)` + `subtask.completed =
!subtask.completed` part of `toggleSubtaskStatus` (`canvas.js`). -/
def toggleSubtaskInSubtasks (subtaskId : Nat) : List Subtask → Option (List Subtask)
  | [] => none
  | s :: ss =>
    if s.id == subtaskId then some ({ s with completed := !s.completed } :: ss)
    else (toggleSubtaskInSubtasks subtaskId ss).map (s :: ·)

/-- The body of `toggleSubtaskStatus` (`canvas.js` lines 660–686) once the
owning feature is identified: flip the subtask's `completed` flag, then

```js
const allComplete = feature.subtasks.every(s => s.completed);
const anyComplete = feature.subtasks.some(s => s.completed);
if (allComplete && feature.subtasks.length > 0) feature.status = 'complete';
else if (anyComplete) feature.status = 'in_progress';
```

Note there is no `else` branch: when the toggle leaves zero subtasks
completed, the previous `status` is kept. Returns `none` when the feature
does not contain the subtask. -/
def toggleSubtaskInFeature (subtaskId : Nat) (f : Feature) : Option Feature :=
  (toggleSubtaskInSubtasks subtaskId f.subtasks).map (fun subs =>
    { f with
      subtasks := subs
      status :=
        if subs.all (·.completed) = true ∧ subs.length > 0 then FStatus.complete
        else if subs.any (·.completed) = true then FStatus.in_progress
        else f.status })

/-- The feature-list scan of `toggleSubtaskStatus`. -/
def toggleSubtaskInFeatures (subtaskId : Nat) : List Feature → Option (List Feature)
  | [] => none
  | f :: fs =>
    match toggleSubtaskInFeature subtaskId f with
    | some f' => some (f' :: fs)
    | none => (toggleSubtaskInFeatures subtaskId fs).map (f :: ·)

/-- The phase-list scan of `toggleSubtaskStatus`. -/
def toggleSubtaskInPhases (subtaskId : Nat) : List Phase → Option (List Phase)
  | [] => none
  | p :: ps =>
    match toggleSubtaskInFeatures subtaskId p.features with
    | some fs => some ({ p with features := fs } :: ps)
    | none => (toggleSubtaskInPhases subtaskId ps).map (p :: ·)

/-- `toggleSubtaskStatus(subtaskId)` (`canvas.js` lines 660–686) on an
explicit project argument (the source reads the module-global current
project): the first feature containing the subtask is updated. -/
def toggleSubtaskStatus (project : Project) (subtaskId : Nat) : Project :=
  match toggleSubtaskInPhases subtaskId project.phases with
  | some ps => { project with phases := ps }
  | none => project

/-! ## Example-building helpers (concrete witnesses and counterexamples) -/

/-- Concrete subtask for examples. -/
def mkSubtask (id fid : Nat) (done : Bool) : Subtask :=
  { id := id, feature_id := fid, description := "task", completed := done,
    ai_generated := false }

/-- Concrete feature for examples. -/
def mkFeature (id pid : Nat) (name : String) (st : FStatus) (m : Marked)
    (subs : List Subtask) (deps : List Nat) : Feature :=
  { id := id, phase_id := pid, name := name, description := "", status := st,
    ai_generated := false, marked_as := m, collapsed := true,
    position := ⟨0, 0⟩, dependencies := deps, subtasks := subs }

/-- Concrete phase for examples. -/
def mkPhase (id projId : Nat) (name : String) (ord : Nat)
    (fs : List Feature) : Phase :=
  { id := id, project_id := projId, name := name, description := "",
    order := ord, collapsed := false, position := ⟨40, 100⟩, features := fs }

/-- Concrete project for examples. -/
def mkProject (id : Nat) (phs : List Phase) : Project :=
  { id := id, name := "Demo", goal := "demo", created := 0, modified := 0,
    ai_model := "claude", gist_id := none, gist_url := none,
    last_synced := none, phases := phs, canvas_state := ⟨1, 0, 0⟩ }

/-! ## C8: `deletePhase` cascades and keeps `order` contiguous -/

lemma renumberPhases_length (k : Nat) (ps : List Phase) :
    (renumberPhases k ps).length = ps.length := by
  induction ps generalizing k with
  | nil => rfl
  | cons p ps ih => simp [renumberPhases, ih]

lemma renumberPhases_map_idFeatures (k : Nat) (ps : List Phase) :
    (renumberPhases k ps).map (fun p => (p.id, p.features)) =
      ps.map (fun p => (p.id, p.features)) := by
  induction ps generalizing k with
  | nil => rfl
  | cons p ps ih => simp [renumberPhases, ih]

lemma renumberPhases_map_id (k : Nat) (ps : List Phase) :
    (renumberPhases k ps).map (·.id) = ps.map (·.id) := by
  induction ps generalizing k with
  | nil => rfl
  | cons p ps ih => simp [renumberPhases, ih]

lemma renumberPhases_map_order (k : Nat) (ps : List Phase) :
    (renumberPhases k ps).map (·.order) = List.range' k ps.length := by
  induction ps generalizing k with
  | nil => rfl
  | cons p ps ih => simp [renumberPhases, ih, List.range'_succ]

lemma phases_filter_ne_of_not_mem (pid : Nat) (ps : List Phase)
    (h : pid ∉ ps.map (·.id)) :
    ps.filter (fun p => p.id != pid) = ps := by
  induction ps with
  | nil => rfl
  | cons p ps ih =>
    simp only [List.map_cons, List.mem_cons] at h
    push_neg at h
    have hpne : (p.id != pid) = true := by
      simpa [bne_iff_ne] using fun hc => h.1 hc.symm
    simp [List.filter_cons, hpne, ih h.2]

lemma removeFirstPhase_spec (pid : Nat) (ps : List Phase)
    (h : pid ∈ ps.map (·.id)) :
    ∃ qs, removeFirstPhase pid ps = some qs ∧ qs.length + 1 = ps.length ∧
      ((ps.map (·.id)).Nodup → qs = ps.filter (fun p => p.id != pid)) := by
  induction ps with
  | nil => simp at h
  | cons p ps ih =>
    by_cases hp : p.id = pid
    · refine ⟨ps, ?_, by simp, ?_⟩
      · simp [removeFirstPhase, hp]
      · intro hnd
        simp only [List.map_cons, List.nodup_cons] at hnd
        have hnot : pid ∉ ps.map (·.id) := by
          simpa [hp] using hnd.1
        have hne : (p.id != pid) = false := by simp [hp]
        simp [List.filter_cons, hne, phases_filter_ne_of_not_mem pid ps hnot]
    · have hmem : pid ∈ ps.map (·.id) := by
        simp only [List.map_cons, List.mem_cons] at h
        exact h.resolve_left (fun hc => hp hc.symm)
      obtain ⟨qs, hq, hlen, hfil⟩ := ih hmem
      refine ⟨p :: qs, ?_, by simpa using hlen, ?_⟩
      · simp [removeFirstPhase, hp, hq]
      · intro hnd
        simp only [List.map_cons, List.nodup_cons] at hnd
        have hpne : (p.id != pid) = true := by simpa [bne_iff_ne] using hp
        simp [List.filter_cons, hpne, hfil hnd.2]

/-- C8: `deletePhase(id)` on a project containing a phase with that id
(ids unique) removes that phase — together with its whole `features`
subtree — reports success, and renumbers the surviving phases' `order`
fields to the contiguous sequence `0..n-1` in list order. -/
theorem deletePhase_cascade_and_contiguous (p : Project) (pid : Nat)
    (hnodup : (p.phases.map (·.id)).Nodup)
    (hmem : pid ∈ p.phases.map (·.id)) :
    (deletePhase p pid).2 = true ∧
      (deletePhase p pid).1.phases.length + 1 = p.phases.length ∧
      (∀ ph' ∈ (deletePhase p pid).1.phases, ph'.id ≠ pid) ∧
      ((deletePhase p pid).1.phases.map (fun ph => (ph.id, ph.features)) =
        (p.phases.filter (fun ph => ph.id != pid)).map
          (fun ph => (ph.id, ph.features))) ∧
      ((deletePhase p pid).1.phases.map (·.order) =
        List.range (deletePhase p pid).1.phases.length) := by
  obtain ⟨qs, hq, hlen, hfil⟩ := removeFirstPhase_spec pid p.phases hmem
  have hqs := hfil hnodup
  simp only [deletePhase, hq]
  refine ⟨trivial, ?_, ?_, ?_, ?_⟩
  · simpa [renumberPhases_length] using hlen
  · intro ph' hph'
    have hid : ph'.id ∈ (renumberPhases 0 qs).map (·.id) :=
      List.mem_map_of_mem _ hph'
    rw [renumberPhases_map_id, hqs] at hid
    obtain ⟨q, hqmem, hqid⟩ := List.mem_map.mp hid
    have := (List.mem_filter.mp hqmem).2
    rw [bne_iff_ne] at this
    exact hqid ▸ this
  · rw [renumberPhases_map_idFeatures, hqs]
  · rw [renumberPhases_map_order, renumberPhases_length, List.range_eq_range']

/-- Project used in the C8 witness: two phases with features and subtasks. -/
def c8ExampleProject : Project :=
  mkProject 1
    [ mkPhase 2 1 "Phase 1: Setup" 0
        [mkFeature 3 2 "Auth" .not_started .none [mkSubtask 4 3 false] []],
      mkPhase 5 1 "Phase 2: Core" 1
        [mkFeature 6 5 "Canvas" .not_started .none [] []] ]

/-- C8 witness: deleting phase 2 of the concrete two-phase project. -/
theorem deletePhase_cascade_and_contiguous_witness :
    ((c8ExampleProject.phases.map (·.id)).Nodup ∧
        2 ∈ c8ExampleProject.phases.map (·.id)) ∧
      ((deletePhase c8ExampleProject 2).2 = true ∧
        (deletePhase c8ExampleProject 2).1.phases.length + 1 =
          c8ExampleProject.phases.length ∧
        (∀ ph' ∈ (deletePhase c8ExampleProject 2).1.phases, ph'.id ≠ 2) ∧
        ((deletePhase c8ExampleProject 2).1.phases.map
            (fun ph => (ph.id, ph.features)) =
          (c8ExampleProject.phases.filter (fun ph => ph.id != 2)).map
            (fun ph => (ph.id, ph.features))) ∧
        ((deletePhase c8ExampleProject 2).1.phases.map (·.order) =
          List.range (deletePhase c8ExampleProject 2).1.phases.length)) :=
  ⟨⟨by decide, by decide⟩,
    deletePhase_cascade_and_contiguous c8ExampleProject 2 (by decide) (by decide)⟩

/-! ## C10: `toggleFeatureStatus` ignores the subtask set -/

/-- C10: the explicit feature-checkbox toggle flips between `complete` and
`not_started` only, ignoring subtasks: a non-`complete` status becomes
`complete`, a `complete` status becomes `not_started`, the subtask list is
untouched, `in_progress` is never produced, and there are inputs where the
result is `not_started` with every subtask completed, or `complete` with
none completed. -/
theorem toggleFeatureStatusFlip_spec :
    (∀ f : Feature, f.status ≠ .complete →
        (toggleFeatureStatusFlip f).status = .complete) ∧
      (∀ f : Feature, f.status = .complete →
        (toggleFeatureStatusFlip f).status = .not_started) ∧
      (∀ f : Feature, (toggleFeatureStatusFlip f).subtasks = f.subtasks) ∧
      (∀ f : Feature, (toggleFeatureStatusFlip f).status ≠ .in_progress) ∧
      (∃ f : Feature, (∀ s ∈ f.subtasks, s.completed = true) ∧
        (toggleFeatureStatusFlip f).status = .not_started) ∧
      (∃ f : Feature, (∀ s ∈ f.subtasks, s.completed = false) ∧
        (toggleFeatureStatusFlip f).status = .complete) := by
  refine ⟨?_, ?_, ?_, ?_, ?_, ?_⟩
  · intro f hf
    simp [toggleFeatureStatusFlip, hf]
  · intro f hf
    simp [toggleFeatureStatusFlip, hf]
  · intro f
    rfl
  · intro f
    by_cases hf : f.status = .complete <;> simp [toggleFeatureStatusFlip, hf]
  · exact ⟨mkFeature 1 0 "A" .complete .none [mkSubtask 2 1 true] [],
      by simp [mkFeature, mkSubtask], by decide⟩
  · exact ⟨mkFeature 1 0 "A" .not_started .none [mkSubtask 2 1 false] [],
      by simp [mkFeature, mkSubtask], by decide⟩

/-! ## C1: `toggleSubtaskStatus` and the derived-status rule -/

/-- Project used in the C1 counterexample: one feature whose single
subtask is completed and whose cached status is `complete`. -/
def c1ExampleProject : Project :=
  mkProject 1
    [mkPhase 2 1 "Phase 1: Setup" 0
      [mkFeature 3 2 "Auth" .complete .none [mkSubtask 4 3 true] []]]

/-- C1 counterexample: toggling the only (completed) subtask of a
`complete` feature leaves zero subtasks completed, yet `toggleSubtaskStatus`
leaves the feature's status at `complete` (the code has no `else` branch for
the zero-completed case), contradicting the claim that such a toggle
"does not leave status at complete or in_progress". -/
theorem toggleSubtaskStatus_desync_counterexample :
    (toggleSubtaskStatus c1ExampleProject 4).phases.map
        (fun ph => ph.features.map
          (fun f => (f.status, f.subtasks.map (·.completed)))) =
      [[(FStatus.complete, [false])]] := by
  decide

/-- C1 (amended): after `toggleSubtaskStatus` flips a subtask of a feature,
the feature's status is `complete` when the (non-empty) subtask set is all
completed, `in_progress` when some but not all are completed, and is left at
its previous value (possibly stale) when the toggle leaves zero subtasks
completed. -/
theorem toggleSubtaskInFeature_status (f : Feature) (sid : Nat) (f' : Feature)
    (h : toggleSubtaskInFeature sid f = some f') :
    ((f'.subtasks ≠ [] ∧ ∀ s ∈ f'.subtasks, s.completed = true) →
        f'.status = .complete) ∧
      (((∃ s ∈ f'.subtasks, s.completed = true) ∧
          (∃ s ∈ f'.subtasks, s.completed = false)) →
        f'.status = .in_progress) ∧
      ((∀ s ∈ f'.subtasks, s.completed = false) → f'.status = f.status) := by
  obtain ⟨subs, hsubs, hf'⟩ := Option.map_eq_some'.mp h
  subst hf'
  refine ⟨?_, ?_, ?_⟩
  · rintro ⟨hne, hall⟩
    have hballs : subs.all (·.completed) = true :=
      List.all_eq_true.mpr (fun s hs => hall s hs)
    have hpos : subs.length > 0 := List.length_pos.mpr (by simpa using hne)
    simp [hballs, hpos]
  · rintro ⟨⟨s₁, hs₁, hc₁⟩, ⟨s₂, hs₂, hc₂⟩⟩
    have hnall : ¬(subs.all (·.completed) = true ∧ subs.length > 0) := by
      rintro ⟨hall, -⟩
      have := List.all_eq_true.mp hall s₂ (by simpa using hs₂)
      simp_all
    have hany : subs.any (·.completed) = true :=
      List.any_eq_true.mpr ⟨s₁, by simpa using hs₁, hc₁⟩
    simp only [Feature.status]
    rw [if_neg hnall, if_pos hany]
  · intro hnone
    have hnall : ¬(subs.all (·.completed) = true ∧ subs.length > 0) := by
      rintro ⟨hall, hpos⟩
      obtain ⟨s, hs⟩ := List.exists_mem_of_length_pos hpos
      have := List.all_eq_true.mp hall s hs
      have := hnone s (by simpa using hs)
      simp_all
    have hnany : ¬subs.any (·.completed) = true := by
      intro hany
      obtain ⟨s, hs, hc⟩ := List.any_eq_true.mp hany
      have := hnone s (by simpa using hs)
      simp_all
    simp only [Feature.status]
    rw [if_neg hnall, if_neg hnany]

/-- Feature used in the C1 witness (two subtasks, one completed). -/
def c1WitnessFeature : Feature :=
  mkFeature 1 0 "Auth" .not_started .none
    [mkSubtask 2 1 false, mkSubtask 3 1 true] []

/-- Result of toggling subtask 2 of `c1WitnessFeature`: both subtasks
completed, so the status is recomputed to `complete`. -/
def c1WitnessFeatureToggled : Feature :=
  { c1WitnessFeature with
    subtasks := [mkSubtask 2 1 true, mkSubtask 3 1 true]
    status := .complete }

/-- C1 witness: the amended theorem applied at a concrete toggle. -/
theorem toggleSubtaskInFeature_status_witness :
    (toggleSubtaskInFeature 2 c1WitnessFeature = some c1WitnessFeatureToggled) ∧
      (((c1WitnessFeatureToggled.subtasks ≠ [] ∧
            ∀ s ∈ c1WitnessFeatureToggled.subtasks, s.completed = true) →
          c1WitnessFeatureToggled.status = .complete) ∧
        (((∃ s ∈ c1WitnessFeatureToggled.subtasks, s.completed = true) ∧
            (∃ s ∈ c1WitnessFeatureToggled.subtasks, s.completed = false)) →
          c1WitnessFeatureToggled.status = .in_progress) ∧
        ((∀ s ∈ c1WitnessFeatureToggled.subtasks, s.completed = false) →
          c1WitnessFeatureToggled.status = c1WitnessFeature.status)) :=
  ⟨by decide,
    toggleSubtaskInFeature_status c1WitnessFeature 2 c1WitnessFeatureToggled
      (by decide)⟩

/-! ## C2: `deleteSubtask` removes but does not recompute status -/

/-- The subtask-id list of one feature. -/
def featureSubtaskIds (f : Feature) : List Nat := f.subtasks.map (·.id)

/-- All subtask ids of a feature list, in scan order. -/
def featuresSubtaskIds (fs : List Feature) : List Nat :=
  fs.flatMap featureSubtaskIds

/-- All subtask ids of a project, in scan order. -/
def projectSubtaskIds (p : Project) : List Nat :=
  p.phases.flatMap (fun ph => featuresSubtaskIds ph.features)

lemma removeFirstSubtask_none_iff (sid : Nat) (ss : List Subtask) :
    removeFirstSubtask sid ss = none ↔ sid ∉ ss.map (·.id) := by
  induction ss with
  | nil => simp [removeFirstSubtask]
  | cons s ss ih =>
    by_cases hs : s.id = sid
    · simp [removeFirstSubtask, hs]
    · simp only [removeFirstSubtask, beq_iff_eq, if_neg hs, Option.map_eq_none',
        List.map_cons, List.mem_cons, ih]
      constructor
      · rintro hnot (hl | hr)
        · exact hs hl.symm
        · exact hnot hr
      · intro hnot hr
        exact hnot (Or.inr hr)

lemma removeFirstSubtask_some_spec (sid : Nat) (ss ts : List Subtask)
    (h : removeFirstSubtask sid ss = some ts) :
    ts.length + 1 = ss.length ∧ sid ∈ ss.map (·.id) ∧
      ((ss.map (·.id)).Nodup → ∀ s ∈ ts, s.id ≠ sid) := by
  induction ss generalizing ts with
  | nil => simp [removeFirstSubtask] at h
  | cons s ss ih =>
    by_cases hs : s.id = sid
    · rw [removeFirstSubtask, if_pos (by simpa using hs)] at h
      obtain rfl : ss = ts := by simpa using h
      refine ⟨by simp, by simp [hs], ?_⟩
      intro hnd t ht
      simp only [List.map_cons, List.nodup_cons] at hnd
      intro hc
      exact hnd.1 (hs ▸ hc ▸ List.mem_map_of_mem _ ht)
    · rw [removeFirstSubtask, if_neg (by simpa using hs)] at h
      obtain ⟨ts', hts', rfl⟩ := Option.map_eq_some'.mp h
      obtain ⟨hlen, hmem, hnds⟩ := ih ts' hts'
      refine ⟨by simpa using hlen, by simp [hmem], ?_⟩
      intro hnd t ht
      simp only [List.map_cons, List.nodup_cons] at hnd
      rcases List.mem_cons.mp ht with rfl | ht'
      · exact hs
      · exact hnds hnd.2 t ht'

lemma deleteSubtaskInFeatures_none_iff (sid : Nat) (fs : List Feature) :
    deleteSubtaskInFeatures sid fs = none ↔ sid ∉ featuresSubtaskIds fs := by
  induction fs with
  | nil => simp [deleteSubtaskInFeatures, featuresSubtaskIds]
  | cons f fs ih =>
    rw [deleteSubtaskInFeatures]
    rcases hrem : removeFirstSubtask sid f.subtasks with _ | ts
    · have hnot : sid ∉ f.subtasks.map (·.id) :=
        (removeFirstSubtask_none_iff sid f.subtasks).mp hrem
      simp [featuresSubtaskIds, featureSubtaskIds, Option.map_eq_none', ih,
        List.mem_append, hnot]
    · have hmem : sid ∈ f.subtasks.map (·.id) :=
        (removeFirstSubtask_some_spec sid f.subtasks ts hrem).2.1
      simp [featuresSubtaskIds, featureSubtaskIds, List.mem_append, hmem]

lemma deleteSubtaskInFeatures_some_spec (sid : Nat) (fs fs' : List Feature)
    (h : deleteSubtaskInFeatures sid fs = some fs') :
    fs'.map (·.status) = fs.map (·.status) ∧
      (featuresSubtaskIds fs').length + 1 = (featuresSubtaskIds fs).length ∧
      ((featuresSubtaskIds fs).Nodup →
        ∀ f' ∈ fs', ∀ s ∈ f'.subtasks, s.id ≠ sid) := by
  induction fs generalizing fs' with
  | nil => simp [deleteSubtaskInFeatures] at h
  | cons f fs ih =>
    rw [deleteSubtaskInFeatures] at h
    rcases hrem : removeFirstSubtask sid f.subtasks with _ | ts <;>
      rw [hrem] at h
    · obtain ⟨fs'', hfs'', rfl⟩ := Option.map_eq_some'.mp h
      obtain ⟨hst, hlen, hnds⟩ := ih fs'' hfs''
      have hnot : sid ∉ f.subtasks.map (·.id) :=
        (removeFirstSubtask_none_iff sid f.subtasks).mp hrem
      refine ⟨by simp [hst], ?_, ?_⟩
      · simp only [featuresSubtaskIds, List.flatMap_cons] at *
        simp only [List.length_append]
        omega
      · intro hnd f' hf' s hs
        simp only [featuresSubtaskIds, List.flatMap_cons, List.nodup_append] at hnd
        rcases List.mem_cons.mp hf' with rfl | hf''
        · intro hc
          exact hnot (by simpa [featureSubtaskIds, hc] using
            List.mem_map_of_mem (·.id) hs)
        · exact hnds hnd.2.1 f' hf'' s hs
    · obtain rfl : { f with subtasks := ts } :: fs = fs' := by simpa using h
      obtain ⟨hlen, hmem, hnds⟩ := removeFirstSubtask_some_spec sid f.subtasks ts hrem
      refine ⟨by simp, ?_, ?_⟩
      · simp only [featuresSubtaskIds, List.flatMap_cons, List.length_append,
          featureSubtaskIds, List.length_map]
        omega
      · intro hnd f' hf' s hs
        simp only [featuresSubtaskIds, List.flatMap_cons, List.nodup_append] at hnd
        rcases List.mem_cons.mp hf' with rfl | hf''
        · exact hnds hnd.1 s (by simpa using hs)
        · intro hc
          have hsid₂ : sid ∈ featuresSubtaskIds fs := by
            refine List.mem_flatMap.mpr ⟨f', hf'', ?_⟩
            simpa [featureSubtaskIds, hc] using List.mem_map_of_mem (·.id) hs
          exact hnd.2.2 hmem hsid₂

lemma deleteSubtaskInPhases_none_iff (sid : Nat) (ps : List Phase) :
    deleteSubtaskInPhases sid ps = none ↔
      sid ∉ ps.flatMap (fun ph => featuresSubtaskIds ph.features) := by
  induction ps with
  | nil => simp [deleteSubtaskInPhases]
  | cons p ps ih =>
    rw [deleteSubtaskInPhases]
    rcases hdel : deleteSubtaskInFeatures sid p.features with _ | fs
    · have hnot : sid ∉ featuresSubtaskIds p.features :=
        (deleteSubtaskInFeatures_none_iff sid p.features).mp hdel
      simp [Option.map_eq_none', ih, List.mem_append, hnot]
    · have hmem : sid ∈ featuresSubtaskIds p.features := by
        by_contra hno
        rw [← deleteSubtaskInFeatures_none_iff] at hno
        simp [hno] at hdel
      simp [List.mem_append, hmem]

lemma deleteSubtaskInPhases_some_spec (sid : Nat) (ps ps' : List Phase)
    (h : deleteSubtaskInPhases sid ps = some ps') :
    ps'.map (fun ph => ph.features.map (·.status)) =
        ps.map (fun ph => ph.features.map (·.status)) ∧
      (ps'.flatMap (fun ph => featuresSubtaskIds ph.features)).length + 1 =
        (ps.flatMap (fun ph => featuresSubtaskIds ph.features)).length ∧
      ((ps.flatMap (fun ph => featuresSubtaskIds ph.features)).Nodup →
        ∀ ph' ∈ ps', ∀ f' ∈ ph'.features, ∀ s ∈ f'.subtasks, s.id ≠ sid) := by
  induction ps generalizing ps' with
  | nil => simp [deleteSubtaskInPhases] at h
  | cons p ps ih =>
    rw [deleteSubtaskInPhases] at h
    rcases hdel : deleteSubtaskInFeatures sid p.features with _ | fs <;>
      rw [hdel] at h
    · obtain ⟨ps'', hps'', rfl⟩ := Option.map_eq_some'.mp h
      obtain ⟨hst, hlen, hnds⟩ := ih ps'' hps''
      have hnot : sid ∉ featuresSubtaskIds p.features :=
        (deleteSubtaskInFeatures_none_iff sid p.features).mp hdel
      refine ⟨by simp [hst], ?_, ?_⟩
      · simp only [List.flatMap_cons, List.length_append] at *
        omega
      · intro hnd ph' hph' f' hf' s hs
        simp only [List.flatMap_cons, List.nodup_append] at hnd
        rcases List.mem_cons.mp hph' with rfl | hph''
        · intro hc
          refine hnot (List.mem_flatMap.mpr ⟨f', hf', ?_⟩)
          simpa [featureSubtaskIds, hc] using List.mem_map_of_mem (·.id) hs
        · exact hnds hnd.2.1 ph' hph'' f' hf' s hs
    · obtain rfl : { p with features := fs } :: ps = ps' := by simpa using h
      obtain ⟨hst, hlen, hnds⟩ := deleteSubtaskInFeatures_some_spec sid p.features fs hdel
      refine ⟨by simp [hst], ?_, ?_⟩
      · simp only [List.flatMap_cons, List.length_append]
        omega
      · intro hnd ph' hph' f' hf' s hs
        simp only [List.flatMap_cons, List.nodup_append] at hnd
        rcases List.mem_cons.mp hph' with rfl | hph''
        · exact hnds hnd.1 f' (by simpa using hf') s hs
        · intro hc
          have hmem : sid ∈ featuresSubtaskIds p.features := by
            by_contra hno
            rw [← deleteSubtaskInFeatures_none_iff] at hno
            simp [hno] at hdel
          have hsid₂ : sid ∈ ps.flatMap (fun ph => featuresSubtaskIds ph.features) := by
            refine List.mem_flatMap.mpr ⟨ph', hph'', ?_⟩
            refine List.mem_flatMap.mpr ⟨f', hf', ?_⟩
            simpa [featureSubtaskIds, hc] using List.mem_map_of_mem (·.id) hs
          exact hnd.2.2 hmem hsid₂

/-- Project used in the C2 counterexample: one feature with status
`in_progress` and subtasks `[completed, not completed]`. -/
def c2ExampleProject : Project :=
  mkProject 1
    [mkPhase 2 1 "Phase 1: Setup" 0
      [mkFeature 3 2 "Auth" .in_progress .none
        [mkSubtask 4 3 true, mkSubtask 5 3 false] []]]

/-- C2 counterexample: deleting the incomplete subtask leaves the feature
with a non-empty, all-completed subtask set, yet its status stays
`in_progress` — `deleteSubtask` performs no recomputation, contradicting
the claim that the status is recomputed to `complete`. -/
theorem deleteSubtask_no_recompute_counterexample :
    (deleteSubtask c2ExampleProject 5).phases.map
        (fun ph => ph.features.map
          (fun f => (f.status, f.subtasks.map (·.completed)))) =
      [[(FStatus.in_progress, [true])]] := by
  decide

/-- C2 (amended): `deleteSubtask(id)` removes the subtask with that id from
its owning feature (ids unique) and reports success, but leaves every
feature's `status` exactly as it was — no recomputation happens on
deletion. -/
theorem deleteSubtask_removes_without_recompute (p : Project) (sid : Nat)
    (hnodup : (projectSubtaskIds p).Nodup)
    (hmem : sid ∈ projectSubtaskIds p) :
    (deleteSubtaskFromProject p sid).2 = true ∧
      ((deleteSubtask p sid).phases.map
          (fun ph => ph.features.map (·.status)) =
        p.phases.map (fun ph => ph.features.map (·.status))) ∧
      (∀ ph' ∈ (deleteSubtask p sid).phases, ∀ f' ∈ ph'.features,
        ∀ s ∈ f'.subtasks, s.id ≠ sid) ∧
      (projectSubtaskIds (deleteSubtask p sid)).length + 1 =
        (projectSubtaskIds p).length := by
  rcases hdel : deleteSubtaskInPhases sid p.phases with _ | ps'
  · rw [deleteSubtaskInPhases_none_iff] at hdel
    exact absurd hmem hdel
  · obtain ⟨hst, hlen, hnds⟩ := deleteSubtaskInPhases_some_spec sid p.phases ps' hdel
    refine ⟨?_, ?_, ?_, ?_⟩
    · simp [deleteSubtaskFromProject, hdel]
    · simpa [deleteSubtask, deleteSubtaskFromProject, hdel] using hst
    · intro ph' hph' f' hf' s hs
      have hph'' : ph' ∈ ps' := by
        simpa [deleteSubtask, deleteSubtaskFromProject, hdel] using hph'
      exact hnds hnodup ph' hph'' f' hf' s hs
    · simpa [deleteSubtask, deleteSubtaskFromProject, hdel,
        projectSubtaskIds] using hlen

/-- C2 witness: the amended deletion theorem at a concrete project. -/
theorem deleteSubtask_removes_without_recompute_witness :
    ((projectSubtaskIds c2ExampleProject).Nodup ∧
        5 ∈ projectSubtaskIds c2ExampleProject) ∧
      ((deleteSubtaskFromProject c2ExampleProject 5).2 = true ∧
        ((deleteSubtask c2ExampleProject 5).phases.map
            (fun ph => ph.features.map (·.status)) =
          c2ExampleProject.phases.map (fun ph => ph.features.map (·.status))) ∧
        (∀ ph' ∈ (deleteSubtask c2ExampleProject 5).phases,
          ∀ f' ∈ ph'.features, ∀ s ∈ f'.subtasks, s.id ≠ 5) ∧
        (projectSubtaskIds (deleteSubtask c2ExampleProject 5)).length + 1 =
          (projectSubtaskIds c2ExampleProject).length) :=
  ⟨⟨by decide, by decide⟩,
    deleteSubtask_removes_without_recompute c2ExampleProject 5
      (by decide) (by decide)⟩

/-! ## Merge engine (`ai.js` `mergeAIResponse`, lines 384–428) -/

/-- One feature of an AI-generated phase tree
(`{name, description, suggested_subtasks, dependencies}` per the prompt
contract in `ai.js`). -/
structure AIFeature where
  name : String
  description : String
  suggested_subtasks : List String
  dependencies : List Nat
deriving DecidableEq, Repr, BEq

/-- One phase of an AI-generated phase tree (`{name, description, features}`). -/
structure AIPhase where
  name : String
  description : String
  features : List AIFeature
deriving DecidableEq, Repr, BEq

/-- `constraints = {keepItems, discardItems}` — whole `Feature` records of
the previous tree, as collected by `buildAIContext` (`ai.js`). -/
structure Constraints where
  keepItems : List Feature
  discardItems : List Feature
deriving Repr

/-- JS `String.prototype.toLowerCase` as the character-wise lowering
`Char.toLower` (names in this app are ASCII), kept executable by the
kernel (`String.toLower` itself does not kernel-reduce). -/
def strLower (s : String) : String := ⟨s.data.map Char.toLower⟩

/-- `Object.assign(existingFeature, keepItem)` (`ai.js` line 403): every
field of the keep item overwrites the matched AI feature's same-named
field; the AI-only `suggested_subtasks` field is the only one retained
from the AI feature. -/
def assignKeep (keep : Feature) (f : AIFeature) : AIFeature :=
  { name := keep.name
    description := keep.description
    suggested_subtasks := f.suggested_subtasks
    dependencies := keep.dependencies }

/-- `newPhases[0].features.push(keepItem)` (`ai.js` line 411): the keep item
is appended verbatim; as a tree `Feature` it carries no
`suggested_subtasks` field (read downstream as `|| []`). -/
def keepToAIFeature (keep : Feature) : AIFeature :=
  { name := keep.name
    description := keep.description
    suggested_subtasks := []
    dependencies := keep.dependencies }

/-- `Object.assign` onto the first feature whose name matches the keep item
case-insensitively (`phase.features.find(...)` in `ai.js`). -/
def overwriteFirstMatch (keep : Feature) : List AIFeature → List AIFeature
  | [] => []
  | f :: fs =>
    if strLower f.name == strLower keep.name then assignKeep keep f :: fs
    else f :: overwriteFirstMatch keep fs

/-- The inner `for (const phase of newPhases)` search of `mergeAIResponse`:
the first phase containing a case-insensitive name match has that feature
overwritten; `none` when no phase matches. -/
def applyKeepInPhases (keep : Feature) : List AIPhase → Option (List AIPhase)
  | [] => none
  | ph :: phs =>
    if ph.features.any (fun f => strLower f.name == strLower keep.name) then
      some ({ ph with features := overwriteFirstMatch keep ph.features } :: phs)
    else (applyKeepInPhases keep phs).map (ph :: ·)

/-- One iteration of the keep-preservation loop of `mergeAIResponse`: match
and overwrite, else append verbatim to the first phase when one exists,
else drop the keep item silently. -/
def applyKeep (phases : List AIPhase) (keep : Feature) : List AIPhase :=
  match applyKeepInPhases keep phases with
  | some phs => phs
  | none =>
    match phases with
    | [] => []
    | ph :: phs => { ph with features := ph.features ++ [keepToAIFeature keep] } :: phs

/-- The whole keep-preservation loop (`for (const keepItem of keepItems)`). -/
def applyKeeps (keeps : List Feature) (phases : List AIPhase) : List AIPhase :=
  keeps.foldl applyKeep phases

/-- `mergeAIResponse(aiResponse, project, constraints)` (`ai.js` lines
384–428), with `newPhases = aiResponse.phases`: full replacement when both
constraint lists are empty, otherwise keep-preservation first and
discard-filtering (case-insensitive name match) last. -/
def mergeAIResponse (newPhases : List AIPhase) (constraints : Constraints) :
    List AIPhase :=
  if constraints.keepItems.isEmpty && constraints.discardItems.isEmpty then
    newPhases
  else
    let kept :=
      if constraints.keepItems.isEmpty then newPhases
      else applyKeeps constraints.keepItems newPhases
    if constraints.discardItems.isEmpty then kept
    else
      kept.map (fun ph =>
        { ph with
          features := ph.features.filter (fun f =>
            !(constraints.discardItems.any (fun d =>
              strLower d.name == strLower f.name))) })

/-! ## C9: keep items against an empty generated phase list -/

lemma applyKeeps_nil (keeps : List Feature) : applyKeeps keeps [] = [] := by
  induction keeps with
  | nil => rfl
  | cons k ks ih =>
    show applyKeeps ks (applyKeep [] k) = []
    have : applyKeep [] k = [] := rfl
    rw [this, ih]

/-- C9: merging an empty `newPhases` list under a non-empty `keepItems`
list and empty `discardItems` yields the empty phase list — every keep
item is silently dropped (the append branch is guarded by
`newPhases.length > 0`), and the operation is total. -/
theorem mergeAIResponse_empty_newPhases (keeps : List Feature)
    (hne : keeps ≠ []) :
    mergeAIResponse [] ⟨keeps, []⟩ = [] := by
  have hkeeps : keeps.isEmpty = false := by
    cases keeps with
    | nil => exact absurd rfl hne
    | cons k ks => rfl
  simp [mergeAIResponse, hkeeps, applyKeeps_nil]

/-- C9 witness: one concrete keep item, empty generated phases. -/
theorem mergeAIResponse_empty_newPhases_witness :
    ([mkFeature 1 0 "Login" .not_started .keep [] []] : List Feature) ≠ [] ∧
      mergeAIResponse [] ⟨[mkFeature 1 0 "Login" .not_started .keep [] []], []⟩ = [] :=
  ⟨by simp,
    mergeAIResponse_empty_newPhases [mkFeature 1 0 "Login" .not_started .keep [] []]
      (by simp)⟩

/-! ## C3: discard wins over keep on a name conflict -/

/-- C3: when some feature name occurs (case-insensitively) in both
`keepItems` and `discardItems`, the merged result contains no feature with
that name in any phase — keep-preservation runs first, discard-filtering
runs last, so the discard filter removes every feature whose name matches. -/
theorem mergeAIResponse_discard_wins (newPhases : List AIPhase)
    (keeps discards : List Feature) (k d : Feature)
    (hk : k ∈ keeps) (hd : d ∈ discards)
    (hname : strLower k.name = strLower d.name) :
    ∀ ph ∈ mergeAIResponse newPhases ⟨keeps, discards⟩,
      ∀ f ∈ ph.features, strLower f.name ≠ strLower k.name := by
  intro ph hph f hf hc
  have hdis : discards.isEmpty = false := by
    cases discards with
    | nil => simp at hd
    | cons x xs => rfl
  rw [mergeAIResponse] at hph
  rw [if_neg (by simp [hdis])] at hph
  simp only [hdis, Bool.false_eq_true, if_false] at hph
  obtain ⟨ph₀, hph₀, rfl⟩ := List.mem_map.mp hph
  have hpred := (List.mem_filter.mp hf).2
  rw [Bool.not_eq_true'] at hpred
  have hall := List.any_eq_false.mp hpred d hd
  have hall' : strLower d.name ≠ strLower f.name := by simpa using hall
  exact hall' (by rw [← hname, hc])

/-- Generated phases for the C3 witness: one phase containing "Login". -/
def c3NewPhases : List AIPhase :=
  [⟨"Phase 1: Setup", "", [⟨"Login", "login feature", [], []⟩]⟩]

/-- Keep item of the C3 witness. -/
def c3KeepLogin : Feature := mkFeature 1 0 "Login" .not_started .keep [] []

/-- Discard item of the C3 witness (same name up to case). -/
def c3DiscardLogin : Feature := mkFeature 2 0 "LOGIN" .not_started .discard [] []

/-- C3 witness: "Login" kept and "LOGIN" discarded — the name is absent
from every merged phase. -/
theorem mergeAIResponse_discard_wins_witness :
    (c3KeepLogin ∈ [c3KeepLogin] ∧ c3DiscardLogin ∈ [c3DiscardLogin] ∧
        strLower c3KeepLogin.name = strLower c3DiscardLogin.name) ∧
      ∀ ph ∈ mergeAIResponse c3NewPhases ⟨[c3KeepLogin], [c3DiscardLogin]⟩,
        ∀ f ∈ ph.features, strLower f.name ≠ strLower c3KeepLogin.name :=
  ⟨⟨by simp, by simp, by decide⟩,
    mergeAIResponse_discard_wins c3NewPhases [c3KeepLogin] [c3DiscardLogin]
      c3KeepLogin c3DiscardLogin (by simp) (by simp) (by decide)⟩

/-! ## `applyAIResponse` (main application file, lines 663–736) -/

/-- `split(':')[0]` on a character list: everything before the first colon
(JS `String.prototype.split` followed by taking element 0). -/
def takeBeforeColon : List Char → List Char
  | [] => []
  | c :: cs => if c = ':' then [] else c :: takeBeforeColon cs

/-- JS `String.prototype.includes` on character lists: `pat` occurs as a
contiguous infix of `hay`. -/
def infixCheck (pat : List Char) : List Char → Bool
  | [] => pat.isEmpty
  | hay@(_ :: rest) => pat.isPrefixOf hay || infixCheck pat rest

/-- The feature-preservation pass of `applyAIResponse`: all features of the
previous tree with `marked_as === 'keep'`, paired with their phase's name
(the `originalPhase` bookkeeping field), in scan order. -/
def collectKeeps (p : Project) : List (Feature × String) :=
  p.phases.flatMap (fun ph =>
    (ph.features.filter (fun f => f.marked_as == Marked.keep)).map
      (fun f => (f, ph.name)))

/-- `project.phases.find(p => p.name.toLowerCase().includes(
originalPhase.toLowerCase().split(':')[0]))` as an index. -/
def findTargetIdx (pre : List Char) : List Phase → Option Nat
  | [] => none
  | ph :: phs =>
    if infixCheck pre (strLower ph.name).data then some 0
    else (findTargetIdx pre phs).map (· + 1)

/-- Index of the re-insertion target phase for a preserved feature: the
first generated phase whose lowercased name contains the lowercased
prefix-before-colon of the original phase name, `|| project.phases[0]`
(index 0) when none matches. -/
def targetIdxFor (phases : List Phase) (originalPhaseName : String) : Nat :=
  match findTargetIdx (takeBeforeColon (strLower originalPhaseName).data) phases with
  | some i => i
  | none => 0

/-- In-place update of the phase at one index (the JS code mutates the
found phase object directly). -/
def modifyAt (f : Phase → Phase) : Nat → List Phase → List Phase
  | _, [] => []
  | 0, ph :: phs => f ph :: phs
  | n + 1, ph :: phs => ph :: modifyAt f n phs

/-- The re-insertion body of `applyAIResponse`:
`feature.ai_generated = false; delete feature.originalPhase;
feature.phase_id = targetPhase.id; targetPhase.features.unshift(feature)`.
Note `marked_as` is not touched. -/
def reinsertKeep (k : Feature × String) (ph : Phase) : Phase :=
  { ph with
    features := { k.1 with ai_generated := false, phase_id := ph.id } :: ph.features }

/-- One iteration of the preserved-feature loop: unshift the stripped keep
feature onto its target phase (no-op on an empty phase list, mirroring the
`if (targetPhase)` guard). -/
def insertKeep (phases : List Phase) (k : Feature × String) : List Phase :=
  modifyAt (reinsertKeep k) (targetIdxFor phases k.2) phases

/-- The subtask construction of `applyAIResponse`
(`suggested_subtasks.map(desc => ({id: generateId(), ...}))`, with
`feature_id` set in the follow-up `forEach`); threads the `generateId`
call counter. -/
def buildSubtasks (gen : Nat → Nat) (fid : Nat) :
    Nat → List String → List Subtask × Nat
  | c, [] => ([], c)
  | c, d :: ds =>
    let s : Subtask :=
      { id := gen c, feature_id := fid, description := d, completed := false,
        ai_generated := true }
    let (ss, c') := buildSubtasks gen fid (c + 1) ds
    (s :: ss, c')

/-- The feature construction of `applyAIResponse` (fresh id, `phase_id`
from the enclosing phase, `status: 'not_started'`, `ai_generated: true`,
`marked_as: 'none'`, empty `dependencies`). -/
def buildFeatures (gen : Nat → Nat) (pid : Nat) :
    Nat → List AIFeature → List Feature × Nat
  | c, [] => ([], c)
  | c, fd :: fds =>
    let nid := gen c
    let (subs, c₁) := buildSubtasks gen nid (c + 1) fd.suggested_subtasks
    let f : Feature :=
      { id := nid, phase_id := pid, name := fd.name,
        description := fd.description, status := .not_started,
        ai_generated := true, marked_as := .none, collapsed := true,
        position := ⟨0, 0⟩, dependencies := [], subtasks := subs }
    let (fs, c₂) := buildFeatures gen pid c₁ fds
    (f :: fs, c₂)

/-- The phase construction of `applyAIResponse`
(`project.phases = newPhases.map((phaseData, index) => ...)`). -/
def buildPhases (gen : Nat → Nat) (projId : Nat) :
    Nat → Nat → List AIPhase → List Phase × Nat
  | _, c, [] => ([], c)
  | index, c, pd :: pds =>
    let nid := gen c
    let (fs, c₁) := buildFeatures gen nid (c + 1) pd.features
    let ph : Phase :=
      { id := nid, project_id := projId, name := pd.name,
        description := pd.description, order := index, collapsed := false,
        position := ⟨Int.ofNat (index * 320 + 40), 100⟩, features := fs }
    let (phs, c₂) := buildPhases gen projId (index + 1) c₁ pds
    (ph :: phs, c₂)

/-- `applyAIResponse(project, newPhases)` (main application file, lines
663–736): collect keep-marked features of the previous tree, rebuild all
phases from the AI response (with fresh ids from the supply `gen`,
starting at call counter `c`), then re-insert each preserved feature at
the front of its target phase. -/
def applyAIResponse (gen : Nat → Nat) (c : Nat) (project : Project)
    (newPhases : List AIPhase) : Project :=
  { project with
    phases :=
      (collectKeeps project).foldl insertKeep
        (buildPhases gen project.id 0 c newPhases).1 }

/-! ## C4 lemmas: the keep re-insertion loop -/

lemma modifyAt_length (f : Phase → Phase) (n : Nat) (l : List Phase) :
    (modifyAt f n l).length = l.length := by
  induction l generalizing n with
  | nil => cases n <;> rfl
  | cons ph phs ih =>
    cases n with
    | zero => rfl
    | succ m => simp [modifyAt, ih]

lemma modifyAt_get (f : Phase → Phase) (n : Nat) (l : List Phase) (i : Nat)
    (h : i < (modifyAt f n l).length) (h0 : i < l.length) :
    (modifyAt f n l).get ⟨i, h⟩ =
      if n = i then f (l.get ⟨i, h0⟩) else l.get ⟨i, h0⟩ := by
  induction l generalizing n i with
  | nil => simp at h0
  | cons ph phs ih =>
    cases n with
    | zero =>
      cases i with
      | zero => simp [modifyAt]
      | succ j => simp [modifyAt, Nat.zero_ne_add_one]
    | succ m =>
      cases i with
      | zero => simp [modifyAt]
      | succ j =>
        have h' : j < (modifyAt f m phs).length := by
          simpa [modifyAt] using h
        have h0' : j < phs.length := by simpa using h0
        have := ih m j h' h0'
        simp only [modifyAt, List.get_cons_succ]
        rw [this]
        by_cases hmj : m = j <;> simp [hmj]

lemma modifyAt_map_of_preserve {α : Type} (g : Phase → α) (f : Phase → Phase)
    (hf : ∀ ph, g (f ph) = g ph) (n : Nat) (l : List Phase) :
    (modifyAt f n l).map g = l.map g := by
  induction l generalizing n with
  | nil => cases n <;> rfl
  | cons ph phs ih =>
    cases n with
    | zero => simp [modifyAt, hf]
    | succ m => simp [modifyAt, ih]

lemma insertKeep_length (phs : List Phase) (k : Feature × String) :
    (insertKeep phs k).length = phs.length :=
  modifyAt_length _ _ _

lemma insertKeep_map_name (phs : List Phase) (k : Feature × String) :
    (insertKeep phs k).map (·.name) = phs.map (·.name) :=
  modifyAt_map_of_preserve (·.name) (reinsertKeep k) (fun _ => rfl)
    (targetIdxFor phs k.2) phs

lemma findTargetIdx_congr (pre : List Char) (phs phs' : List Phase)
    (hn : phs.map (·.name) = phs'.map (·.name)) :
    findTargetIdx pre phs = findTargetIdx pre phs' := by
  induction phs generalizing phs' with
  | nil =>
    cases phs' with
    | nil => rfl
    | cons q qs => simp at hn
  | cons ph phs ih =>
    cases phs' with
    | nil => simp at hn
    | cons q qs =>
      simp only [List.map_cons, List.cons.injEq] at hn
      simp only [findTargetIdx, hn.1, ih qs hn.2]

lemma targetIdxFor_congr (phs phs' : List Phase) (s : String)
    (hn : phs.map (·.name) = phs'.map (·.name)) :
    targetIdxFor phs s = targetIdxFor phs' s := by
  unfold targetIdxFor
  rw [findTargetIdx_congr _ phs phs' hn]

lemma insertKeep_get (phs : List Phase) (k : Feature × String) (i : Nat)
    (h : i < (insertKeep phs k).length) (h0 : i < phs.length) :
    (insertKeep phs k).get ⟨i, h⟩ =
      if targetIdxFor phs k.2 = i then
        reinsertKeep k (phs.get ⟨i, h0⟩)
      else phs.get ⟨i, h0⟩ :=
  modifyAt_get _ _ _ _ h h0

/-- The preserved feature as re-inserted into the phase with id `pid`. -/
def strippedKeep (k : Feature × String) (pid : Nat) : Feature :=
  { k.1 with ai_generated := false, phase_id := pid }

lemma foldl_insertKeep_get (ks : List (Feature × String)) (phs : List Phase)
    (i : Nat) (h : i < (ks.foldl insertKeep phs).length) :
    ∃ h0 : i < phs.length,
      (ks.foldl insertKeep phs).get ⟨i, h⟩ =
        { phs.get ⟨i, h0⟩ with
          features :=
            ((ks.filter (fun k => targetIdxFor phs k.2 == i)).reverse.map
              (fun k => strippedKeep k (phs.get ⟨i, h0⟩).id))
            ++ (phs.get ⟨i, h0⟩).features } := by
  induction ks generalizing phs with
  | nil =>
    refine ⟨by simpa using h, ?_⟩
    simp
  | cons k ks ih =>
    have hfold : (k :: ks).foldl insertKeep phs =
        ks.foldl insertKeep (insertKeep phs k) := rfl
    obtain ⟨h0', heq⟩ := ih (insertKeep phs k) (by
      have := h
      rwa [hfold] at this)
    have h0 : i < phs.length := by
      have := h0'
      rwa [insertKeep_length] at this
    refine ⟨h0, ?_⟩
    have hname : (insertKeep phs k).map (·.name) = phs.map (·.name) :=
      insertKeep_map_name phs k
    have htarget : ∀ s, targetIdxFor (insertKeep phs k) s = targetIdxFor phs s :=
      fun s => targetIdxFor_congr _ _ s hname
    have hget : (insertKeep phs k).get ⟨i, h0'⟩ =
        if targetIdxFor phs k.2 = i then reinsertKeep k (phs.get ⟨i, h0⟩)
        else phs.get ⟨i, h0⟩ := insertKeep_get phs k i h0' h0
    have hcast : (k :: ks).foldl insertKeep phs =
        ks.foldl insertKeep (insertKeep phs k) := hfold
    rw [List.get_of_eq hcast, heq]
    have hfilter : (ks.filter (fun k' => targetIdxFor (insertKeep phs k) k'.2 == i)) =
        (ks.filter (fun k' => targetIdxFor phs k'.2 == i)) := by
      apply List.filter_congr
      intro k' _
      rw [htarget k'.2]
    by_cases htk : targetIdxFor phs k.2 = i
    · have hcond : (targetIdxFor phs k.2 == i) = true := by simpa using htk
      rw [hget, if_pos htk]
      simp only [List.filter_cons, hcond, hfilter, if_pos]
      simp [reinsertKeep, strippedKeep, List.reverse_cons, List.map_append]
    · have hcond : (targetIdxFor phs k.2 == i) = false := by simpa using htk
      rw [hget, if_neg htk]
      simp only [List.filter_cons, hcond, hfilter]
      simp

/-- C4 (amended): at the whole-project regeneration call site with a
non-empty `newPhases`, the resulting phase list has exactly one phase per
generated phase (ids, names and AI-generated features as built by
`buildPhases`), and each phase additionally carries, at its front and in
reverse collection order, exactly the previously kept features whose
target index (case-insensitive prefix-before-colon name containment, or 0
as fallback) is that phase — each with `phase_id` rewritten to the new
phase's id and `ai_generated` reset to `false`; the `marked_as` marker is
left as `keep` (not stripped, unlike the claim). -/
theorem applyAIResponse_keep_reinsertion (gen : Nat → Nat) (c : Nat)
    (p : Project) (newPhases : List AIPhase) (hne : newPhases ≠ []) :
    (applyAIResponse gen c p newPhases).phases.length = newPhases.length ∧
      0 < (applyAIResponse gen c p newPhases).phases.length ∧
      ∀ i (h : i < (applyAIResponse gen c p newPhases).phases.length),
        ∃ h0 : i < (buildPhases gen p.id 0 c newPhases).1.length,
          (applyAIResponse gen c p newPhases).phases.get ⟨i, h⟩ =
            { (buildPhases gen p.id 0 c newPhases).1.get ⟨i, h0⟩ with
              features :=
                (((collectKeeps p).filter (fun k =>
                    targetIdxFor (buildPhases gen p.id 0 c newPhases).1 k.2
                      == i)).reverse.map
                  (fun k => strippedKeep k
                    ((buildPhases gen p.id 0 c newPhases).1.get ⟨i, h0⟩).id))
                ++ ((buildPhases gen p.id 0 c newPhases).1.get ⟨i, h0⟩).features } := by
  have hbuildlen : ∀ (idx cc : Nat) (l : List AIPhase),
      (buildPhases gen p.id idx cc l).1.length = l.length := by
    intro idx cc l
    induction l generalizing idx cc with
    | nil => rfl
    | cons pd pds ih => simp [buildPhases, ih]
  have hfoldlen : ∀ (ks : List (Feature × String)) (phs : List Phase),
      (ks.foldl insertKeep phs).length = phs.length := by
    intro ks
    induction ks with
    | nil => intro phs; rfl
    | cons k ks ih =>
      intro phs
      rw [List.foldl_cons, ih, insertKeep_length]
  refine ⟨?_, ?_, ?_⟩
  · simp only [applyAIResponse, hfoldlen, hbuildlen]
  · simp only [applyAIResponse, hfoldlen, hbuildlen]
    exact List.length_pos.mpr hne
  · intro i h
    exact foldl_insertKeep_get (collectKeeps p) _ i h

/-- Previous-tree project for the C4 counterexample/witness: one phase
"Phase 1: Setup" holding a keep-marked feature "Auth". -/
def c4Project : Project :=
  mkProject 1
    [mkPhase 2 1 "Phase 1: Setup" 0
      [mkFeature 3 2 "Auth" .in_progress .keep [mkSubtask 4 3 true] []]]

/-- AI-generated phases for the C4 counterexample/witness. -/
def c4NewPhases : List AIPhase :=
  [⟨"Phase 1: Core", "core work", [⟨"Gen", "generated", ["t1"], []⟩]⟩]

/-- C4 counterexample: after regeneration the re-inserted kept feature
still has `marked_as = keep` — `applyAIResponse` resets `ai_generated` and
drops `originalPhase` but never clears the marker, contradicting the
claim that the feature is "stripped of its ai_generated and marker
(marked_as) bookkeeping". -/
theorem applyAIResponse_marker_not_stripped :
    (applyAIResponse (fun n => 100 + n) 0 c4Project c4NewPhases).phases.map
        (fun ph => ph.features.map (fun f => (f.marked_as, f.ai_generated))) =
      [[(Marked.keep, false), (Marked.none, true)]] := by
  decide

/-- C4 witness: the amended re-insertion theorem at the concrete input. -/
theorem applyAIResponse_keep_reinsertion_witness :
    c4NewPhases ≠ [] ∧
      ((applyAIResponse (fun n => 100 + n) 0 c4Project c4NewPhases).phases.length =
          c4NewPhases.length ∧
        0 < (applyAIResponse (fun n => 100 + n) 0 c4Project c4NewPhases).phases.length ∧
        ∀ i (h : i <
            (applyAIResponse (fun n => 100 + n) 0 c4Project c4NewPhases).phases.length),
          ∃ h0 : i < (buildPhases (fun n => 100 + n) c4Project.id 0 0 c4NewPhases).1.length,
            (applyAIResponse (fun n => 100 + n) 0 c4Project c4NewPhases).phases.get ⟨i, h⟩ =
              { (buildPhases (fun n => 100 + n) c4Project.id 0 0 c4NewPhases).1.get ⟨i, h0⟩ with
                features :=
                  (((collectKeeps c4Project).filter (fun k =>
                      targetIdxFor (buildPhases (fun n => 100 + n) c4Project.id 0 0
                        c4NewPhases).1 k.2 == i)).reverse.map
                    (fun k => strippedKeep k
                      ((buildPhases (fun n => 100 + n) c4Project.id 0 0
                        c4NewPhases).1.get ⟨i, h0⟩).id))
                  ++ ((buildPhases (fun n => 100 + n) c4Project.id 0 0
                    c4NewPhases).1.get ⟨i, h0⟩).features }) :=
  ⟨by simp [c4NewPhases],
    applyAIResponse_keep_reinsertion (fun n => 100 + n) 0 c4Project c4NewPhases
      (by simp [c4NewPhases])⟩

/-! ## Export / import (`storage.js` lines 334–411) -/

/-- The versioned export document
`{version: "1.0", exported: <epoch-ms>, project: ...}`. -/
structure ExportDoc where
  version : String
  exported : Nat
  project : Project
deriving Repr

/-- `exportProject(project)` (`storage.js` lines 334–346): wrap the project
with version and timestamp, nulling the internal `gist_id` and
`last_synced` fields (serialization to a JSON string is the identity on
this model). -/
def exportProject (now : Nat) (project : Project) : ExportDoc :=
  { version := "1.0"
    exported := now
    project := { project with gist_id := none, last_synced := none } }

/-- `idMap.get(depId)` on the id-substitution association list, first
match. -/
def lookupId (m : List (Nat × Nat)) (d : Nat) : Option Nat :=
  (m.find? (fun e => e.1 == d)).map (·.2)

/-- The subtask pass of `importProject`: fresh id per subtask, parent
`feature_id` rewritten; threads the `generateId` call counter. Subtask ids
are not entered into the id map (the source only records phase and feature
ids). -/
def importSubtasks (gen : Nat → Nat) (fid : Nat) :
    Nat → List Subtask → List Subtask × Nat
  | c, [] => ([], c)
  | c, s :: ss =>
    let rest := importSubtasks gen fid (c + 1) ss
    ({ s with id := gen c, feature_id := fid } :: rest.1, rest.2)

/-- The feature pass of `importProject`: fresh feature id (entered into
the id map under the old id), parent `phase_id` rewritten, subtasks
recursed. -/
def importFeatures (gen : Nat → Nat) (pid : Nat) :
    Nat → List Feature → List Feature × List (Nat × Nat) × Nat
  | c, [] => ([], [], c)
  | c, f :: fs =>
    let subs := importSubtasks gen (gen c) (c + 1) f.subtasks
    let rest := importFeatures gen pid subs.2 fs
    ({ f with id := gen c, phase_id := pid, subtasks := subs.1 } :: rest.1,
      (f.id, gen c) :: rest.2.1,
      rest.2.2)

/-- The phase pass of `importProject`: fresh phase id (entered into the id
map), parent `project_id` rewritten, features recursed. -/
def importPhases (gen : Nat → Nat) (pid : Nat) :
    Nat → List Phase → List Phase × List (Nat × Nat) × Nat
  | c, [] => ([], [], c)
  | c, ph :: phs =>
    let fs := importFeatures gen (gen c) (c + 1) ph.features
    let rest := importPhases gen pid fs.2.2 phs
    ({ ph with id := gen c, project_id := pid, features := fs.1 } :: rest.1,
      (ph.id, gen c) :: (fs.2.1 ++ rest.2.1),
      rest.2.2)

/-- The second pass of `importProject`: rewrite each feature's
`dependencies` through the id map, dropping unmapped entries
(`.map(depId => idMap.get(depId)).filter(id => id)`). -/
def rewriteDeps (m : List (Nat × Nat)) (ph : Phase) : Phase :=
  { ph with
    features := ph.features.map (fun f =>
      { f with dependencies := f.dependencies.filterMap (lookupId m) }) }

/-- `importProject(jsonString)` (`storage.js` lines 349–411) on an
already-parsed document: reject a falsy `version` (the
`!data.version` check; the empty string is the falsy string), regenerate
every id from the supply `gen` (project id first, then phases, features,
subtasks in traversal order), rewrite parent references and dependencies,
and null the gist/sync bookkeeping. -/
def importProject (gen : Nat → Nat) (now : Nat) (doc : ExportDoc) :
    Option Project :=
  if doc.version = "" then none
  else
    let res := importPhases gen (gen 0) 1 doc.project.phases
    some { doc.project with
      id := gen 0
      created := now
      modified := now
      gist_id := none
      gist_url := none
      last_synced := none
      phases := res.1.map (rewriteDeps res.2.1) }

/-- The id-substitution map built by importing a phase list (old phase and
feature ids to their fresh replacements). -/
def importIdMap (gen : Nat → Nat) (phs : List Phase) : List (Nat × Nat) :=
  (importPhases gen (gen 0) 1 phs).2.1

/-! ## C5 lemmas: structure, ids, consistency, dependencies -/

/-- Id-independent content of a subtask. -/
def subtaskData (s : Subtask) : String × Bool := (s.description, s.completed)

/-- Id-independent content of a feature (name, description, subtask
contents). -/
def featureData (f : Feature) : String × String × List (String × Bool) :=
  (f.name, f.description, f.subtasks.map subtaskData)

/-- Id-independent content of a phase. -/
def phaseData (ph : Phase) :
    String × String × List (String × String × List (String × Bool)) :=
  (ph.name, ph.description, ph.features.map featureData)

/-- Id-independent content of a project's tree. -/
def projectData (p : Project) :
    List (String × String × List (String × String × List (String × Bool))) :=
  p.phases.map phaseData

/-- All entity ids below one feature (its own id and its subtasks'). -/
def featureIdList (f : Feature) : List Nat := f.id :: f.subtasks.map (·.id)

/-- All entity ids below one phase. -/
def phaseIdList (ph : Phase) : List Nat :=
  ph.id :: ph.features.flatMap featureIdList

/-- All entity ids of a project. -/
def projectIds (p : Project) : List Nat :=
  p.id :: p.phases.flatMap phaseIdList

/-- Phase and feature ids of a phase list (the possible values of the id
map). -/
def phaseFeatureIds (phs : List Phase) : List Nat :=
  phs.flatMap (fun ph => ph.id :: ph.features.map (·.id))

lemma range1_append (s m n : Nat) :
    List.range' s m ++ List.range' (s + m) n = List.range' s (m + n) := by
  induction m generalizing s with
  | zero => simp
  | succ k ih =>
    rw [List.range'_succ, Nat.succ_add, List.range'_succ, List.cons_append]
    have : s + (k + 1) = (s + 1) + k := by omega
    rw [this, ih (s + 1)]

lemma importSubtasks_spec (gen : Nat → Nat) (fid : Nat) (ss : List Subtask) :
    ∀ c : Nat,
      (importSubtasks gen fid c ss).2 = c + ss.length ∧
        (importSubtasks gen fid c ss).1.map (·.id) =
          (List.range' c ss.length).map gen ∧
        (importSubtasks gen fid c ss).1.map subtaskData = ss.map subtaskData ∧
        ∀ s ∈ (importSubtasks gen fid c ss).1, s.feature_id = fid := by
  induction ss with
  | nil => intro c; refine ⟨by simp [importSubtasks], by simp [importSubtasks], by simp [importSubtasks], by simp [importSubtasks]⟩
  | cons s ss ih =>
    intro c
    obtain ⟨hc, hid, hdata, hfid⟩ := ih (c + 1)
    refine ⟨?_, ?_, ?_, ?_⟩
    · simp only [importSubtasks, hc, List.length_cons]
      omega
    · simp only [importSubtasks, List.map_cons, hid, List.length_cons,
        List.range'_succ]
    · simp only [importSubtasks, List.map_cons, hdata, subtaskData]
    · intro t ht
      rcases List.mem_cons.mp ht with rfl | ht'
      · rfl
      · exact hfid t ht'

lemma importFeatures_spec (gen : Nat → Nat) (pid : Nat) (fs : List Feature) :
    ∀ c : Nat,
      (importFeatures gen pid c fs).2.2 =
          c + (fs.flatMap featureIdList).length ∧
        (importFeatures gen pid c fs).1.flatMap featureIdList =
          (List.range' c (fs.flatMap featureIdList).length).map gen ∧
        (importFeatures gen pid c fs).1.map featureData = fs.map featureData ∧
        (∀ f' ∈ (importFeatures gen pid c fs).1,
          f'.phase_id = pid ∧ ∀ s ∈ f'.subtasks, s.feature_id = f'.id) ∧
        ((importFeatures gen pid c fs).2.1.map (·.1) = fs.map (·.id)) ∧
        (∀ e ∈ (importFeatures gen pid c fs).2.1,
          e.2 ∈ (importFeatures gen pid c fs).1.map (·.id)) ∧
        (importFeatures gen pid c fs).1.map (·.dependencies) =
          fs.map (·.dependencies) := by
  induction fs with
  | nil =>
    intro c
    refine ⟨by simp [importFeatures], by simp [importFeatures],
      by simp [importFeatures], by simp [importFeatures],
      by simp [importFeatures], by simp [importFeatures],
      by simp [importFeatures]⟩
  | cons f fs ih =>
    intro c
    obtain ⟨hsc, hsid, hsdata, hsfid⟩ :=
      importSubtasks_spec gen (gen c) f.subtasks (c + 1)
    obtain ⟨hrc, hrid, hrdata, hrcons, hrkeys, hrvals, hrdeps⟩ :=
      ih ((importSubtasks gen (gen c) (c + 1) f.subtasks).2)
    have hlen : (fs.flatMap featureIdList).length + (1 + f.subtasks.length) =
        ((f :: fs).flatMap featureIdList).length := by
      simp [featureIdList]
      omega
    rw [hsc] at hrc hrid hrdata hrcons hrkeys hrvals hrdeps
    refine ⟨?_, ?_, ?_, ?_, ?_, ?_, ?_⟩
    · simp only [importFeatures, hsc, hrc]
      simp only [List.flatMap_cons, List.length_append, List.length_cons,
        featureIdList, List.length_map]
      omega
    · simp only [importFeatures, List.flatMap_cons, hsc]
      have hhead : featureIdList
          { f with
            id := gen c
            phase_id := pid
            subtasks := (importSubtasks gen (gen c) (c + 1) f.subtasks).1 } =
          gen c :: (List.range' (c + 1) f.subtasks.length).map gen := by
        simp [featureIdList, hsid]
      rw [hhead, hrid]
      have hr : List.range' c ((featureIdList f ++ fs.flatMap featureIdList).length) =
          c :: (List.range' (c + 1) f.subtasks.length ++
            List.range' (c + 1 + f.subtasks.length)
              (fs.flatMap featureIdList).length) := by
        rw [range1_append]
        have h1 : (featureIdList f ++ fs.flatMap featureIdList).length =
            (f.subtasks.length + (fs.flatMap featureIdList).length) + 1 := by
          simp [featureIdList]
        rw [h1, List.range'_succ]
      rw [hr]
      simp only [List.map_cons, List.map_append, List.cons_append]
    · simp only [importFeatures, List.map_cons, hsc, hrdata]
      congr 1
      simp [featureData, hsdata]
    · intro f' hf'
      simp only [importFeatures, hsc, List.mem_cons] at hf'
      rcases hf' with rfl | hf''
      · refine ⟨rfl, ?_⟩
        intro s hs
        exact hsfid s hs
      · exact hrcons f' hf''
    · simp only [importFeatures, List.map_cons, hsc, hrkeys]
    · intro e he
      simp only [importFeatures, hsc, List.mem_cons] at he
      rcases he with rfl | he'
      · simp [importFeatures]
      · have := hrvals e he'
        simp only [importFeatures, List.map_cons, hsc, List.mem_cons]
        exact Or.inr this
    · simp only [importFeatures, List.map_cons, hsc, hrdeps]

lemma importPhases_spec (gen : Nat → Nat) (pid : Nat) (ps : List Phase) :
    ∀ c : Nat,
      (importPhases gen pid c ps).2.2 =
          c + (ps.flatMap phaseIdList).length ∧
        (importPhases gen pid c ps).1.flatMap phaseIdList =
          (List.range' c (ps.flatMap phaseIdList).length).map gen ∧
        (importPhases gen pid c ps).1.map phaseData = ps.map phaseData ∧
        (∀ ph' ∈ (importPhases gen pid c ps).1,
          ph'.project_id = pid ∧ ∀ f' ∈ ph'.features,
            f'.phase_id = ph'.id ∧ ∀ s ∈ f'.subtasks, s.feature_id = f'.id) ∧
        (∀ e ∈ (importPhases gen pid c ps).2.1,
          e.2 ∈ phaseFeatureIds (importPhases gen pid c ps).1) ∧
        (importPhases gen pid c ps).1.map
            (fun ph => ph.features.map (·.dependencies)) =
          ps.map (fun ph => ph.features.map (·.dependencies)) := by
  induction ps with
  | nil =>
    intro c
    refine ⟨by simp [importPhases], by simp [importPhases],
      by simp [importPhases], by simp [importPhases],
      by simp [importPhases, phaseFeatureIds], by simp [importPhases]⟩
  | cons ph ps ih =>
    intro c
    obtain ⟨hfc, hfid, hfdata, hfcons, hfkeys, hfvals, hfdeps⟩ :=
      importFeatures_spec gen (gen c) ph.features (c + 1)
    obtain ⟨hrc, hrid, hrdata, hrcons, hrvals, hrdeps⟩ :=
      ih ((importFeatures gen (gen c) (c + 1) ph.features).2.2)
    rw [hfc] at hrc hrid hrdata hrcons hrvals hrdeps
    refine ⟨?_, ?_, ?_, ?_, ?_, ?_⟩
    · simp only [importPhases, hfc, hrc]
      simp only [List.flatMap_cons, List.length_append, List.length_cons,
        phaseIdList]
      omega
    · simp only [importPhases, List.flatMap_cons, hfc]
      have hhead : phaseIdList
          { ph with
            id := gen c
            project_id := pid
            features := (importFeatures gen (gen c) (c + 1) ph.features).1 } =
          gen c :: (List.range' (c + 1)
            (ph.features.flatMap featureIdList).length).map gen := by
        simp [phaseIdList, hfid]
      rw [hhead, hrid]
      have hr : List.range' c ((phaseIdList ph ++ ps.flatMap phaseIdList).length) =
          c :: (List.range' (c + 1) (ph.features.flatMap featureIdList).length ++
            List.range' (c + 1 + (ph.features.flatMap featureIdList).length)
              (ps.flatMap phaseIdList).length) := by
        rw [range1_append]
        have h1 : (phaseIdList ph ++ ps.flatMap phaseIdList).length =
            ((ph.features.flatMap featureIdList).length +
              (ps.flatMap phaseIdList).length) + 1 := by
          simp [phaseIdList]
        rw [h1, List.range'_succ]
      rw [hr]
      simp only [List.map_cons, List.map_append, List.cons_append]
    · simp only [importPhases, List.map_cons, hfc, hrdata]
      congr 1
      simp [phaseData, hfdata]
    · intro ph' hph'
      simp only [importPhases, hfc, List.mem_cons] at hph'
      rcases hph' with rfl | hph''
      · refine ⟨rfl, ?_⟩
        intro f' hf'
        exact hfcons f' hf'
      · exact hrcons ph' hph''
    · intro e he
      simp only [importPhases, hfc, List.mem_cons, List.mem_append] at he
      have hsplit : phaseFeatureIds (importPhases gen pid c (ph :: ps)).1 =
          (gen c :: (importFeatures gen (gen c) (c + 1) ph.features).1.map (·.id))
            ++ phaseFeatureIds (importPhases gen pid
              (c + 1 + (ph.features.flatMap featureIdList).length) ps).1 := by
        simp [importPhases, phaseFeatureIds, hfc]
      rw [hsplit]
      rcases he with rfl | he' | he''
      · simp
      · have := hfvals e he'
        simp only [List.cons_append, List.mem_cons, List.mem_append]
        exact Or.inr (Or.inl this)
      · have := hrvals e he''
        simp only [List.cons_append, List.mem_cons, List.mem_append]
        exact Or.inr (Or.inr this)
    · simp only [importPhases, List.map_cons, hfc, hrdeps]
      congr 1

lemma flatMap_map_eq {α β γ : Type} (g : β → List γ) (f : α → β)
    (l : List α) : (l.map f).flatMap g = l.flatMap (fun a => g (f a)) := by
  induction l with
  | nil => rfl
  | cons a l ih => simp [ih]

lemma phaseData_rewriteDeps (m : List (Nat × Nat)) (ph : Phase) :
    phaseData (rewriteDeps m ph) = phaseData ph := by
  simp only [phaseData, rewriteDeps, List.map_map]
  rfl

lemma phaseIdList_rewriteDeps (m : List (Nat × Nat)) (ph : Phase) :
    phaseIdList (rewriteDeps m ph) = phaseIdList ph := by
  simp only [phaseIdList, rewriteDeps, flatMap_map_eq]
  rfl

lemma flatMap_phaseIdList_rewriteDeps (m : List (Nat × Nat)) (ps : List Phase) :
    (ps.map (rewriteDeps m)).flatMap phaseIdList = ps.flatMap phaseIdList := by
  induction ps with
  | nil => rfl
  | cons ph ps ih =>
    simp only [List.map_cons, List.flatMap_cons, ih, phaseIdList_rewriteDeps]

lemma phaseFeatureIds_rewriteDeps (m : List (Nat × Nat)) (ps : List Phase) :
    phaseFeatureIds (ps.map (rewriteDeps m)) = phaseFeatureIds ps := by
  induction ps with
  | nil => rfl
  | cons ph ps ih =>
    simp only [phaseFeatureIds, List.map_cons, List.flatMap_cons] at *
    rw [ih]
    congr 1
    simp only [rewriteDeps, List.map_map]
    rfl

/-- C5: exporting a project and importing the exported document yields a
structurally identical tree (same names, descriptions and completion flags
at every level, hence the same counts), with every entity id freshly drawn
from the supply (pairwise distinct, disjoint from all old ids), parent
references mutually consistent, and every `dependencies` list rewritten
through the id-substitution map — unmapped entries dropped, surviving
entries naming phase/feature ids of the new tree. -/
theorem export_import_roundtrip (gen : Nat → Nat) (now₁ now₂ : Nat)
    (p : Project) (hinj : Function.Injective gen)
    (hfresh : ∀ i, gen i ∉ projectIds p) :
    ∃ p', importProject gen now₂ (exportProject now₁ p) = some p' ∧
      projectData p' = projectData p ∧
      (∀ ph' ∈ p'.phases, ph'.project_id = p'.id ∧
        ∀ f' ∈ ph'.features, f'.phase_id = ph'.id ∧
          ∀ s ∈ f'.subtasks, s.feature_id = f'.id) ∧
      (projectIds p').Nodup ∧
      (∀ x ∈ projectIds p', x ∉ projectIds p) ∧
      (p'.phases.map (fun ph => ph.features.map (·.dependencies)) =
        p.phases.map (fun ph => ph.features.map (fun f =>
          f.dependencies.filterMap (lookupId (importIdMap gen p.phases))))) ∧
      (∀ ph' ∈ p'.phases, ∀ f' ∈ ph'.features, ∀ d ∈ f'.dependencies,
        d ∈ phaseFeatureIds p'.phases) := by
  obtain ⟨hc, hid, hdata, hcons, hvals, hdeps⟩ :=
    importPhases_spec gen (gen 0) p.phases 1
  refine ⟨{ p with
    id := gen 0
    created := now₂
    modified := now₂
    gist_id := none
    gist_url := none
    last_synced := none
    phases := (importPhases gen (gen 0) 1 p.phases).1.map
      (rewriteDeps (importPhases gen (gen 0) 1 p.phases).2.1) }, ?_, ?_, ?_, ?_, ?_, ?_, ?_⟩
  · rw [importProject]
    rw [if_neg (show ¬(exportProject now₁ p).version = "" by
      simp only [exportProject]
      decide)]
    rfl
  · show ((importPhases gen (gen 0) 1 p.phases).1.map
      (rewriteDeps (importPhases gen (gen 0) 1 p.phases).2.1)).map phaseData =
        projectData p
    rw [List.map_map]
    calc ((importPhases gen (gen 0) 1 p.phases).1.map
          (phaseData ∘ rewriteDeps (importPhases gen (gen 0) 1 p.phases).2.1)) =
        (importPhases gen (gen 0) 1 p.phases).1.map phaseData := by
          apply List.map_congr_left
          intro ph _
          exact phaseData_rewriteDeps _ ph
      _ = p.phases.map phaseData := hdata
      _ = projectData p := rfl
  · intro ph' hph'
    obtain ⟨ph₀, hph₀, rfl⟩ := List.mem_map.mp hph'
    obtain ⟨hpid, hfs⟩ := hcons ph₀ hph₀
    refine ⟨hpid, ?_⟩
    intro f' hf'
    obtain ⟨f₀, hf₀, rfl⟩ := List.mem_map.mp hf'
    obtain ⟨hfid2, hsubs⟩ := hfs f₀ hf₀
    exact ⟨hfid2, hsubs⟩
  · show (gen 0 :: ((importPhases gen (gen 0) 1 p.phases).1.map
      (rewriteDeps (importPhases gen (gen 0) 1 p.phases).2.1)).flatMap
        phaseIdList).Nodup
    rw [flatMap_phaseIdList_rewriteDeps, hid, ← List.map_cons]
    refine List.Nodup.map hinj ?_
    refine List.nodup_cons.mpr ⟨?_, List.nodup_range' 1 _⟩
    intro h0
    have := List.mem_range'_1.mp h0
    omega
  · intro x hx
    have hx' : x ∈ (0 :: List.range' 1
        (p.phases.flatMap phaseIdList).length).map gen := by
      have heq : projectIds { p with
          id := gen 0
          created := now₂
          modified := now₂
          gist_id := (none : Option Nat)
          gist_url := (none : Option String)
          last_synced := (none : Option Nat)
          phases := (importPhases gen (gen 0) 1 p.phases).1.map
            (rewriteDeps (importPhases gen (gen 0) 1 p.phases).2.1) } =
          (0 :: List.range' 1 (p.phases.flatMap phaseIdList).length).map gen := by
        show (gen 0 :: ((importPhases gen (gen 0) 1 p.phases).1.map
          (rewriteDeps (importPhases gen (gen 0) 1 p.phases).2.1)).flatMap
            phaseIdList) = _
        rw [flatMap_phaseIdList_rewriteDeps, hid, List.map_cons]
      rwa [heq] at hx
    obtain ⟨i, -, rfl⟩ := List.mem_map.mp hx'
    exact hfresh i
  · show ((importPhases gen (gen 0) 1 p.phases).1.map
      (rewriteDeps (importPhases gen (gen 0) 1 p.phases).2.1)).map
        (fun ph => ph.features.map (·.dependencies)) = _
    rw [List.map_map]
    calc ((importPhases gen (gen 0) 1 p.phases).1.map
          ((fun ph => ph.features.map (·.dependencies)) ∘
            rewriteDeps (importPhases gen (gen 0) 1 p.phases).2.1)) =
        ((importPhases gen (gen 0) 1 p.phases).1.map
          (fun ph => (ph.features.map (·.dependencies)).map
            (fun ds => ds.filterMap
              (lookupId (importIdMap gen p.phases))))) := by
          apply List.map_congr_left
          intro ph _
          simp only [Function.comp, rewriteDeps, List.map_map]
          rfl
      _ = ((importPhases gen (gen 0) 1 p.phases).1.map
            (fun ph => ph.features.map (·.dependencies))).map
          (fun dss => dss.map (fun ds => ds.filterMap
            (lookupId (importIdMap gen p.phases)))) := by
          rw [List.map_map]
          rfl
      _ = (p.phases.map (fun ph => ph.features.map (·.dependencies))).map
          (fun dss => dss.map (fun ds => ds.filterMap
            (lookupId (importIdMap gen p.phases)))) := by
          rw [hdeps]
      _ = p.phases.map (fun ph => ph.features.map (fun f =>
            f.dependencies.filterMap
              (lookupId (importIdMap gen p.phases)))) := by
          rw [List.map_map]
          apply List.map_congr_left
          intro ph _
          simp only [Function.comp, List.map_map]
          rfl
  · intro ph' hph' f' hf' d hd
    obtain ⟨ph₀, hph₀, rfl⟩ := List.mem_map.mp hph'
    obtain ⟨f₀, hf₀, rfl⟩ := List.mem_map.mp hf'
    obtain ⟨d₀, hd₀, hl⟩ := List.mem_filterMap.mp hd
    obtain ⟨e, he, he2⟩ := Option.map_eq_some'.mp hl
    have hmem : e ∈ (importPhases gen (gen 0) 1 p.phases).2.1 :=
      List.mem_of_find?_eq_some he
    have := hvals e hmem
    rw [phaseFeatureIds_rewriteDeps]
    exact he2 ▸ this

/-- Project used in the C5 witness: two phases, a dependency on a live
feature id and a dangling dependency (id `99`). -/
def c5Project : Project :=
  mkProject 1
    [ mkPhase 2 1 "Setup" 0
        [ mkFeature 3 2 "Auth" .not_started .none [mkSubtask 4 3 true] [],
          mkFeature 5 2 "Login" .in_progress .none [] [3, 99] ],
      mkPhase 6 1 "Core" 1 [] ]

/-- The id supply used in the C5 witness. -/
def c5Gen : Nat → Nat := fun i => 100 + i

/-- C5 witness: the round-trip theorem at the concrete project. -/
theorem export_import_roundtrip_witness :
    (Function.Injective c5Gen ∧ ∀ i, c5Gen i ∉ projectIds c5Project) ∧
      (∃ p', importProject c5Gen 7 (exportProject 6 c5Project) = some p' ∧
        projectData p' = projectData c5Project ∧
        (∀ ph' ∈ p'.phases, ph'.project_id = p'.id ∧
          ∀ f' ∈ ph'.features, f'.phase_id = ph'.id ∧
            ∀ s ∈ f'.subtasks, s.feature_id = f'.id) ∧
        (projectIds p').Nodup ∧
        (∀ x ∈ projectIds p', x ∉ projectIds c5Project) ∧
        (p'.phases.map (fun ph => ph.features.map (·.dependencies)) =
          c5Project.phases.map (fun ph => ph.features.map (fun f =>
            f.dependencies.filterMap
              (lookupId (importIdMap c5Gen c5Project.phases))))) ∧
        (∀ ph' ∈ p'.phases, ∀ f' ∈ ph'.features, ∀ d ∈ f'.dependencies,
          d ∈ phaseFeatureIds p'.phases)) := by
  have hinj : Function.Injective c5Gen := by
    intro a b hab
    simp only [c5Gen] at hab
    omega
  have hfresh : ∀ i, c5Gen i ∉ projectIds c5Project := by
    intro i hmem
    rw [show projectIds c5Project = [1, 2, 3, 4, 5, 6] from by decide] at hmem
    simp only [c5Gen, List.mem_cons, List.not_mem_nil, or_false] at hmem
    omega
  exact ⟨⟨hinj, hfresh⟩,
    export_import_roundtrip c5Gen 6 7 c5Project hinj hfresh⟩

end AppMakingApp
